import Mathlib

/-!
# Verification of the cross-assets-correlation dashboard core

This file embeds the merge pipeline (`data_fetching.py`) and the metrics
engine / dashboard callback (`app.py`, `app_v3.py`) of the
cross-assets-correlation repository as Lean definitions, and proves or
refutes the specified properties.

Modelling conventions:
* Calendar dates are integers (day granularity), numeric cell values are
  rationals; a pandas `NaN` cell is `Option.none`.
* A dataframe row is the list of its cells, a dataframe is the list of its
  (date, row) pairs in index order; columns are positional (the source
  renames columns to fixed display labels, so names carry no information).
* pandas floats are idealised as exact rationals; the Pearson correlation,
  whose formula divides by a square root, is valued in `ℝ`, with `none`
  standing for the `NaN` that pandas produces on degenerate input.
* Python strings handled only by equality tests are Lean `String`s; the
  FRED period string, which is scanned character by character
  (`"d" in period`, `period.replace("d", "")`), is a `List Char`.
-/

namespace CrossAssets

set_option maxRecDepth 4000

abbrev Date := ℤ
abbrev Cell := Option ℚ
abbrev Row := List Cell
abbrev RawPanel := List (Date × Row)

/-! ## Forward / backward fill (pandas `ffill` / `bfill`)

`fillCell carry c` is one cell of a forward-fill pass: a present value is
kept, a missing one is replaced by the carried value from the previous row.
-/

def fillCell (carry c : Cell) : Cell :=
  match c with
  | some v => some v
  | none => carry

/-- One row of a forward-fill pass: each cell falls back to the
corresponding cell of `carry` (the previous filled row). Cells beyond the
carried row's length are kept unchanged. -/
def fillRow : Row → Row → Row
  | _, [] => []
  | [], r => r
  | l :: ls, c :: cs => fillCell l c :: fillRow ls cs

/-- Forward fill of the rows of a panel, threading the previous filled row
as the carry (pandas `DataFrame.ffill`, row-major form). -/
def ffillFrom : Row → RawPanel → RawPanel
  | _, [] => []
  | carry, (d, r) :: rest =>
    (d, fillRow carry r) :: ffillFrom (fillRow carry r) rest

/-- pandas `DataFrame.ffill`: propagate the last known value of each column
forward. -/
def ffill (p : RawPanel) : RawPanel := ffillFrom [] p

/-- pandas `DataFrame.bfill`: propagate the next known value of each column
backward, i.e. a forward fill of the reversed row list. -/
def bfill (p : RawPanel) : RawPanel := (ffillFrom [] p.reverse).reverse

/-! ## Sorting by date (pandas `sort_index`) -/

/-- Row order used by `sort_index`: ascending calendar date. -/
def dateLe (a b : Date × Row) : Prop := a.1 ≤ b.1

instance : DecidableRel dateLe := fun a b => Int.decLe a.1 b.1

instance : IsTotal (Date × Row) dateLe := ⟨fun a b => Int.le_total a.1 b.1⟩

instance : IsTrans (Date × Row) dateLe := ⟨fun _ _ _ h h' => le_trans h h'⟩

/-- pandas `DataFrame.sort_index()`: stable sort of the rows by date. -/
def sort_index (p : RawPanel) : RawPanel := List.insertionSort dateLe p

/-- The gap-filling step of the merge pipeline
(`data_fetching.py` line 80): `df.sort_index().ffill().bfill()`. -/
def fillStep (p : RawPanel) : RawPanel := bfill (ffill (sort_index p))

/-! ## Column-aligned concatenation (pandas `pd.concat(frames, axis=1)`)

`concat(axis=1)` outer-joins the frames on the union of their date
indexes; a frame missing a date contributes `NaN` cells there. A frame is
given together with its column count, used to pad missing dates.
-/

/-- Look up the row of a frame at a date (a frame's index is treated as a
map; the sources deliver at most one row per date). -/
def lookupRow : RawPanel → Date → Option Row
  | [], _ => none
  | (d, r) :: rest, q => if d = q then some r else lookupRow rest q

/-- All dates appearing in a list of frames, first occurrences kept. -/
def unionDates (frames : List (ℕ × RawPanel)) : List Date :=
  (frames.foldr (fun f acc => f.2.map Prod.fst ++ acc) []).dedup

/-- The merged row at one date: each frame contributes its row at that
date, or `width` many `NaN` cells if the date is absent from it. -/
def alignRow (frames : List (ℕ × RawPanel)) (d : Date) : Row :=
  frames.foldr
    (fun f acc =>
      (match lookupRow f.2 d with
       | some cells => cells
       | none => List.replicate f.1 none) ++ acc)
    []

/-- pandas `pd.concat(frames, axis=1)`: one row per date in the union of
the frames' indexes, each row the concatenation of the frames' cells. -/
def concatAxis1 (frames : List (ℕ × RawPanel)) : RawPanel :=
  (unionDates frames).map (fun d => (d, alignRow frames d))

/-! ## FRED fetch helper (`fetch_fred_series`, data_fetching.py lines 36-43) -/

/-- A raw single-column FRED frame: one optional value per date. -/
abbrev SingleSeries := List (Date × Cell)

/-- Python `int(s)` on the stripped period string: an optional sign
followed by at least one digit. -/
def digitsToNat (cs : List Char) : ℕ :=
  cs.foldl (fun a c => a * 10 + (c.toNat - 48)) 0

/-- Python `int(...)` applied to a string, `none` for a `ValueError`. -/
def parseInt : List Char → Option ℤ
  | [] => none
  | '-' :: cs =>
    if cs ≠ [] ∧ cs.all Char.isDigit then some (-(digitsToNat cs : ℤ)) else none
  | cs => if cs.all Char.isDigit then some (digitsToNat cs) else none

/-- `data_fetching.py` line 39:
`days = int(period.replace("d", "")) if "d" in period else 365`.
The period string is modelled as its character list; `none` models the
uncaught `ValueError` of `int`. -/
def fredDays (period : List Char) : Option ℤ :=
  if period.contains 'd' then parseInt (period.filter (fun c => c ≠ 'd'))
  else some 365

/-- The date range `[start, end]` requested from FRED
(`data_fetching.py` lines 38-40), with `now` the current time in days:
`end = now`, `start = end - timedelta(days=days)`. -/
def fredRange (now : ℤ) (period : List Char) : Option (ℤ × ℤ) :=
  (fredDays period).map (fun days => (now - days, now))

/-- A FRED frame as a width-1 panel frame (the FRED response is a
single-column daily table). -/
def singleToFrame (s : SingleSeries) : RawPanel :=
  s.map (fun dc => (dc.1, [dc.2]))

/-- `fetch_fred_series` post-processing (`data_fetching.py` line 43):
`df.ffill().bfill()` on the fetched single-column frame. -/
def fetch_fred_series (fetched : SingleSeries) : RawPanel :=
  bfill (ffill (singleToFrame fetched))

/-! ## Main fetcher (`fetch_cross_asset_data`, data_fetching.py lines 48-82) -/

/-- The FRED series identifiers of `FRED_TICKERS`, in insertion order. -/
def FRED_SERIES : List String := ["DGS3MO", "DGS1", "DGS2", "DGS10", "DGS30"]

/-- The number of Yahoo tickers in `YAHOO_TICKERS`
(Nasdaq, Gold, BTC, ETH, SOL, XRP). -/
def yahooWidth : ℕ := 6

/-- `data_fetching.py` lines 49-51: the sampling interval actually passed
to `yf.download` — forced to daily for the long lookbacks, the request
passed through otherwise:
`if period in ["180d", "1y"]: interval = "1d"`. -/
def yahooCallInterval (period interval : String) : String :=
  if period ∈ (["180d", "1y"] : List String) then "1d" else interval

/-- `fetch_cross_asset_data` (`data_fetching.py` lines 48-82). The two
external sources are parameters: `yahooFetch period interval` is the
6-column close-price frame extracted from `yf.download`, and
`fredFetch series` is the single-column frame returned by the FRED reader.
The pipeline forces the interval, fetches, fills each FRED frame, and
merges everything with `pd.concat(axis=1).sort_index().ffill().bfill()`. -/
def fetch_cross_asset_data
    (yahooFetch : String → String → RawPanel)
    (fredFetch : String → SingleSeries)
    (period interval : String) : RawPanel :=
  let close := yahooFetch period (yahooCallInterval period interval)
  let fredFrames := FRED_SERIES.map (fun sid => (1, fetch_fred_series (fredFetch sid)))
  fillStep (concatAxis1 (fredFrames ++ [(yahooWidth, close)]))

/-! ## Dashboard callback (`update_dashboard`, app.py lines 92-201) -/

/-- pandas `DataFrame.dropna()`: drop every row containing a `NaN`. -/
def dropna (p : RawPanel) : RawPanel :=
  p.filter (fun row => row.2.all (fun c => c.isSome))

/-- The three risk-chart views selectable by the buttons
(the Python dict keys `"vol"`, `"dd"`, `"corr"`). -/
inductive ViewKind where
  | vol : ViewKind
  | dd : ViewKind
  | corrStress : ViewKind
deriving DecidableEq, Repr

/-- Python `max(buttons, key=buttons.get)` over an insertion-ordered dict:
the first key whose value is maximal (a later key replaces the current one
only when its value is strictly greater). -/
def maxByFirst : ViewKind → ℕ → List (ViewKind × ℕ) → ViewKind
  | k, _, [] => k
  | k, v, (k', v') :: rest =>
    if v < v' then maxByFirst k' v' rest else maxByFirst k v rest

/-- `app.py` lines 95-96: the view selected from the cumulative click
counters of the three buttons,
`selected = max({"vol": n_vol, "dd": n_dd, "corr": n_corr}, key=...)`. -/
def selectedView (nVol nDd nCorr : ℕ) : ViewKind :=
  maxByFirst ViewKind.vol nVol [(ViewKind.dd, nDd), (ViewKind.corrStress, nCorr)]

/-- The display state produced by one run of `update_dashboard`: either the
empty-figure "No data returned" short-circuit (app.py lines 106-108),
or rendered figures for the selected view computed from the cleaned
panel. -/
inductive DashDisplay where
  | noDataReturned : DashDisplay
  | rendered : ViewKind → RawPanel → DashDisplay
deriving DecidableEq

/-- `update_dashboard` (app.py lines 92-108) up to the no-data check:
`df = fetch_cross_asset_data(...).dropna()`; if `df.empty` the callback
returns the "⚠ No data returned" state before any metric is computed,
otherwise the metrics for the selected view are derived from `df`. -/
def update_dashboard
    (nVol nDd nCorr : ℕ)
    (yahooFetch : String → String → RawPanel)
    (fredFetch : String → SingleSeries)
    (period interval : String) : DashDisplay :=
  let df := dropna (fetch_cross_asset_data yahooFetch fredFetch period interval)
  if df.isEmpty then DashDisplay.noDataReturned
  else DashDisplay.rendered (selectedView nVol nDd nCorr) df

/-! ## Metrics engine (app.py lines 115-183)

After `dropna` every cell is present, so a single instrument column is a
plain list of rationals.
-/

/-- pandas `Series.pct_change().dropna()` (app.py lines 115-118): the
row-over-row relative change, the undefined first row dropped. -/
def pct_change (l : List ℚ) : List ℚ :=
  List.zipWith (fun prev cur => cur / prev - 1) l l.tail

/-- The running maximum from a seed (helper for `cummax`). -/
def cummaxFrom (m : ℚ) : List ℚ → List ℚ
  | [] => []
  | x :: xs => max m x :: cummaxFrom (max m x) xs

/-- pandas `Series.cummax()` (app.py line 138): the running maximum of the
raw price series. -/
def cummax : List ℚ → List ℚ
  | [] => []
  | x :: xs => x :: cummaxFrom x xs

/-- app.py line 139: `drawdowns = df_crypto / running_max - 1`,
elementwise. -/
def drawdowns (l : List ℚ) : List ℚ :=
  List.zipWith (fun p m => p / m - 1) l (cummax l)

/-- app.py line 140: `maxdd = drawdowns.min()`; `none` is pandas' `NaN`
for an empty series. -/
def maxDrawdown (l : List ℚ) : Option ℚ := (drawdowns l).min?

/-! ### Pearson correlation (pandas `corr`)

Pearson r is `Σ (a-ā)(b-b̄) / sqrt(Σ (a-ā)² * Σ (b-b̄)²)` (the `1/(n-1)`
normalisations cancel). pandas returns `NaN` when a variance vanishes
(constant column, or fewer than two observations); this `NaN` is `none`.
-/

/-- The arithmetic mean of a list of rationals (0 for the empty list,
matching the `0/0 = 0` convention of `ℚ`). -/
def mean (l : List ℚ) : ℚ := l.sum / l.length

/-- The centred cross-product sum `Σ (a - mean xs) * (b - mean ys)`. -/
def covSum (xs ys : List ℚ) : ℚ :=
  (List.zipWith (fun a b => (a - mean xs) * (b - mean ys)) xs ys).sum

/-- The centred square sum `Σ (a - mean xs)²`. -/
def varSum (xs : List ℚ) : ℚ := covSum xs xs

/-- Pearson correlation of two aligned series, `none` for pandas' `NaN`
on degenerate input (a vanishing variance). -/
noncomputable def corr (xs ys : List ℚ) : Option ℝ :=
  if varSum xs = 0 ∨ varSum ys = 0 then none
  else some ((covSum xs ys : ℝ) /
    (Real.sqrt (varSum xs : ℝ) * Real.sqrt (varSum ys : ℝ)))

/-- `round(x, 3)`: rounding to 3 decimal places (app.py line 183). -/
noncomputable def round3 (x : ℝ) : ℝ := (round (x * 1000) : ℤ) / 1000

/-- One entry of `returns_all.corr().round(3)` (app.py line 183,
app_v3.py lines 173-175): the rounded Pearson correlation of columns `i`
and `j` of the returns panel; the outer `none` marks an out-of-range
index, the inner `none` pandas' `NaN`. -/
noncomputable def corrEntry (cols : List (List ℚ)) (i j : ℕ) :
    Option (Option ℝ) :=
  match cols[i]?, cols[j]? with
  | some a, some b => some (Option.map round3 (corr a b))
  | _, _ => none

/-! ### Rolling correlation (app.py lines 156-162) -/

/-- The trailing window of length `w` ending at position `i` (inclusive):
elements `i+1-w, …, i` of the series. -/
def windowAt (w : ℕ) (l : List ℚ) (i : ℕ) : List ℚ :=
  (l.take (i + 1)).drop (i + 1 - w)

/-- pandas `series.rolling(w).corr(other)` (app.py line 162): at each
position the Pearson correlation of the two trailing `w`-windows, `NaN`
(= `none`) for the first `w - 1` positions (fewer than `w` observations)
and for degenerate windows. -/
noncomputable def rolling_corr (w : ℕ) (xs ys : List ℚ) : List (Option ℝ) :=
  (List.range xs.length).map
    (fun i => if i + 1 < w then none else corr (windowAt w xs i) (windowAt w ys i))

/-! ## Lemmas on the fill step

`NoneSub a b` says that wherever `b` has a missing cell (within the common
length), `a` is missing there too; it characterises when a forward-fill
carry `a` leaves a row `b` unchanged.
-/

def NoneSub : Row → Row → Prop
  | _, [] => True
  | [], _ => True
  | a :: as, b :: bs => (b = none → a = none) ∧ NoneSub as bs

theorem fillCell_self (c : Cell) : fillCell c c = c := by
  cases c <;> rfl

theorem fillRow_nil_left (r : Row) : fillRow [] r = r := by
  cases r <;> rfl

theorem fillRow_nil_right (c : Row) : fillRow c [] = [] := by
  cases c <;> rfl

theorem fillRow_length (c r : Row) : (fillRow c r).length = r.length := by
  induction c generalizing r with
  | nil => rw [fillRow_nil_left]
  | cons l ls ih =>
    cases r with
    | nil => rfl
    | cons x xs => simpa [fillRow] using ih xs

/-- A carry leaves a row unchanged exactly when the row's gaps are also
gaps of the carry. -/
theorem fillRow_eq_self_iff (c r : Row) : fillRow c r = r ↔ NoneSub c r := by
  induction c generalizing r with
  | nil => cases r <;> simp [fillRow_nil_left, NoneSub]
  | cons l ls ih =>
    cases r with
    | nil => simp [fillRow_nil_right, NoneSub]
    | cons x xs =>
      have hcell : fillCell l x = x ↔ (x = none → l = none) := by
        cases x <;> simp [fillCell]
      simp [fillRow, NoneSub, hcell, ih xs]

/-- Filling twice with the same carry changes nothing more. -/
theorem fillRow_fillRow (c r : Row) : fillRow c (fillRow c r) = fillRow c r := by
  induction c generalizing r with
  | nil => rw [fillRow_nil_left]
  | cons l ls ih =>
    cases r with
    | nil => rw [fillRow_nil_right, fillRow_nil_right]
    | cons x xs =>
      cases x with
      | some v => simp [fillRow, fillCell, ih xs]
      | none => cases l <;> simp [fillRow, fillCell, ih xs]

/-- `NoneSub` is reflexive. -/
theorem noneSub_refl (r : Row) : NoneSub r r := by
  induction r with
  | nil => trivial
  | cons x xs ih => exact ⟨fun h => h, ih⟩

/-- The gaps of a filled row are gaps of the carry. -/
theorem noneSub_fill_left (c r : Row) : NoneSub c (fillRow c r) := by
  induction c generalizing r with
  | nil => cases fillRow [] r <;> simp [NoneSub]
  | cons l ls ih =>
    cases r with
    | nil => simp [fillRow_nil_right, NoneSub]
    | cons x xs =>
      refine ⟨fun h => ?_, ih xs⟩
      cases x with
      | none => simpa [fillCell] using h
      | some v => simp [fillCell] at h

/-- The gaps of a filled row are gaps of the original row. -/
theorem noneSub_fill_right (c r : Row) : NoneSub r (fillRow c r) := by
  induction c generalizing r with
  | nil => rw [fillRow_nil_left]; exact noneSub_refl r
  | cons l ls ih =>
    cases r with
    | nil => simp [fillRow_nil_right, NoneSub]
    | cons x xs =>
      refine ⟨fun h => ?_, ih xs⟩
      cases x with
      | none => rfl
      | some v => simp [fillCell] at h

/-- Filling a row whose gaps include all of `r₁`'s gaps over `r₁` leaves
`r₁`'s gap set intact. -/
theorem noneSub_fill_absorb (r₁ r₂ : Row) (h : NoneSub r₂ r₁) :
    NoneSub (fillRow r₁ r₂) r₁ := by
  induction r₁ generalizing r₂ with
  | nil => cases fillRow [] r₂ <;> trivial
  | cons x xs ih =>
    cases r₂ with
    | nil => rw [fillRow_nil_right]; trivial
    | cons y ys =>
      obtain ⟨hxy, hsub⟩ := h
      refine ⟨fun hx => ?_, ih ys hsub⟩
      simp [fillRow, hx, hxy hx, fillCell]

/-- Forward-filling only removes gaps: `NoneSub` through a carry. -/
theorem noneSub_fill_mono (c r₁ r₂ : Row) (h : NoneSub r₂ r₁) :
    NoneSub r₂ (fillRow c r₁) := by
  induction r₁ generalizing c r₂ with
  | nil => rw [fillRow_nil_right]; cases r₂ <;> trivial
  | cons x xs ih =>
    cases c with
    | nil => rw [fillRow_nil_left]; exact h
    | cons l ls =>
      cases r₂ with
      | nil => trivial
      | cons y ys =>
        obtain ⟨hxy, hsub⟩ := h
        refine ⟨fun hfill => ?_, ih ls ys hsub⟩
        apply hxy
        cases x with
        | none => rfl
        | some v => simp [fillRow, fillCell] at hfill

/-- Key step for backward-fill preservation: if row `r₁`'s gaps are gaps of
the next raw row `r₂`, then the filled `r₁` is unchanged by a carry that
was itself produced by filling `r₂` over it. -/
theorem noneSub_key (c r₁ r₂ : Row) (h : NoneSub r₂ r₁) :
    NoneSub (fillRow (fillRow c r₁) r₂) (fillRow c r₁) :=
  noneSub_fill_absorb _ _ (noneSub_fill_mono c r₁ r₂ h)

/-! ### Fixpoint structure of filled panels

`Rf a b` (downward): the carry `a` leaves the next row `b` unchanged —
the panel is a fixpoint of `ffill` when `Rf` chains its rows. `Rb` is the
same upward, for `bfill`.
-/

def Rf (a b : Date × Row) : Prop := fillRow a.2 b.2 = b.2

def Rb (a b : Date × Row) : Prop := fillRow b.2 a.2 = a.2

theorem flip_Rf_eq_Rb : flip Rf = Rb := rfl

/-- A forward-fill pass always produces an `Rf`-chained panel. -/
theorem chain'_Rf_ffillFrom (c : Row) (p : RawPanel) :
    List.Chain' Rf (ffillFrom c p) := by
  induction p generalizing c with
  | nil => simp [ffillFrom]
  | cons hd rest ih =>
    obtain ⟨d, r⟩ := hd
    rw [ffillFrom, List.chain'_cons']
    refine ⟨fun y hy => ?_, ih (fillRow c r)⟩
    cases rest with
    | nil => simp [ffillFrom] at hy
    | cons hd₂ rest₂ =>
      obtain ⟨d₂, r₂⟩ := hd₂
      simp [ffillFrom] at hy
      subst hy
      exact fillRow_fillRow (fillRow c r) r₂

/-- An `Rf`-chained panel is untouched by a forward-fill pass whose carry
already leaves the first row unchanged. -/
theorem ffillFrom_eq_self (c : Row) (p : RawPanel) (h : List.Chain' Rf p)
    (hc : ∀ y ∈ p.head?, fillRow c y.2 = y.2) : ffillFrom c p = p := by
  induction p generalizing c with
  | nil => rfl
  | cons hd rest ih =>
    obtain ⟨d, r⟩ := hd
    rw [List.chain'_cons'] at h
    have hr : fillRow c r = r := hc (d, r) (by simp)
    rw [ffillFrom, hr]
    exact congrArg _ (ih r h.2 h.1)

/-- An `Rf`-chained panel is a fixpoint of `ffill`. -/
theorem ffill_eq_self (p : RawPanel) (h : List.Chain' Rf p) : ffill p = p :=
  ffillFrom_eq_self [] p h (fun y _ => fillRow_nil_left y.2)

/-- A forward-fill pass preserves `Rb`-chaining. -/
theorem chain'_Rb_ffillFrom (c : Row) (p : RawPanel) (h : List.Chain' Rb p) :
    List.Chain' Rb (ffillFrom c p) := by
  induction p generalizing c with
  | nil => simp [ffillFrom]
  | cons hd rest ih =>
    obtain ⟨d, r⟩ := hd
    rw [List.chain'_cons'] at h
    rw [ffillFrom, List.chain'_cons']
    refine ⟨fun y hy => ?_, ih (fillRow c r) h.2⟩
    cases rest with
    | nil => simp [ffillFrom] at hy
    | cons hd₂ rest₂ =>
      obtain ⟨d₂, r₂⟩ := hd₂
      simp [ffillFrom] at hy
      subst hy
      have hlink : Rb (d, r) (d₂, r₂) := h.1 (d₂, r₂) (by simp)
      have hsub : NoneSub r₂ r := (fillRow_eq_self_iff r₂ r).mp hlink
      exact (fillRow_eq_self_iff _ _).mpr (noneSub_key c r r₂ hsub)

/-- An `Rb`-chained panel is a fixpoint of `bfill`. -/
theorem bfill_eq_self (p : RawPanel) (h : List.Chain' Rb p) : bfill p = p := by
  have hrev : List.Chain' Rf p.reverse := by
    rw [List.chain'_reverse, flip_Rf_eq_Rb]; exact h
  have : ffillFrom [] p.reverse = p.reverse := ffill_eq_self p.reverse hrev
  rw [bfill, this, List.reverse_reverse]

theorem flip_Rb_eq_Rf : flip Rb = Rf := rfl

/-- `bfill` of any `ffill` output is still `Rf`-chained. -/
theorem chain'_Rf_bfill_ffill (p : RawPanel) :
    List.Chain' Rf (bfill (ffill p)) := by
  have h1 : List.Chain' Rf (ffill p) := chain'_Rf_ffillFrom [] p
  have h2 : List.Chain' Rb (ffill p).reverse := by
    rw [List.chain'_reverse, flip_Rb_eq_Rf]
    exact h1
  have h3 : List.Chain' Rb (ffillFrom [] (ffill p).reverse) :=
    chain'_Rb_ffillFrom [] _ h2
  rw [bfill, List.chain'_reverse, flip_Rf_eq_Rb]
  exact h3

/-- `bfill` of any panel is `Rb`-chained. -/
theorem chain'_Rb_bfill (p : RawPanel) : List.Chain' Rb (bfill p) := by
  rw [bfill, List.chain'_reverse, flip_Rb_eq_Rf]
  exact chain'_Rf_ffillFrom [] _

/-- The combined fill `bfill ∘ ffill` is idempotent. -/
theorem bfill_ffill_idem (p : RawPanel) :
    bfill (ffill (bfill (ffill p))) = bfill (ffill p) := by
  rw [ffill_eq_self _ (chain'_Rf_bfill_ffill p),
    bfill_eq_self _ (chain'_Rb_bfill (ffill p))]

/-! ### Dates are untouched by filling and sorted by `sort_index` -/

theorem map_fst_ffillFrom (c : Row) (p : RawPanel) :
    (ffillFrom c p).map Prod.fst = p.map Prod.fst := by
  induction p generalizing c with
  | nil => rfl
  | cons hd rest ih =>
    obtain ⟨d, r⟩ := hd
    simp [ffillFrom, ih]

theorem map_fst_ffill (p : RawPanel) : (ffill p).map Prod.fst = p.map Prod.fst :=
  map_fst_ffillFrom [] p

theorem map_fst_bfill (p : RawPanel) : (bfill p).map Prod.fst = p.map Prod.fst := by
  rw [bfill, List.map_reverse, map_fst_ffillFrom, ← List.map_reverse,
    List.reverse_reverse]

theorem sorted_sort_index (p : RawPanel) : List.Sorted dateLe (sort_index p) :=
  List.sorted_insertionSort dateLe p

theorem sort_index_eq_self (p : RawPanel) (h : List.Sorted dateLe p) :
    sort_index p = p :=
  h.insertionSort_eq

/-- Sortedness by date only depends on the date list. -/
theorem sorted_dateLe_iff_map (p : RawPanel) :
    List.Sorted dateLe p ↔ List.Pairwise (· ≤ ·) (p.map Prod.fst) := by
  rw [List.pairwise_map]
  exact Iff.rfl

theorem sorted_bfill_ffill (p : RawPanel) (h : List.Sorted dateLe p) :
    List.Sorted dateLe (bfill (ffill p)) := by
  rw [sorted_dateLe_iff_map, map_fst_bfill, map_fst_ffill,
    ← sorted_dateLe_iff_map]
  exact h

/-- The fill step of the merge pipeline is idempotent. -/
theorem fillStep_idem (p : RawPanel) : fillStep (fillStep p) = fillStep p := by
  have hsorted : List.Sorted dateLe (fillStep p) :=
    sorted_bfill_ffill _ (sorted_sort_index p)
  show bfill (ffill (sort_index (fillStep p))) = fillStep p
  rw [sort_index_eq_self _ hsorted]
  exact bfill_ffill_idem (sort_index p)

/-! ### The merged panel's dates: no duplicates, strictly ascending -/

theorem nodup_unionDates (frames : List (ℕ × RawPanel)) :
    (unionDates frames).Nodup :=
  List.nodup_dedup _

theorem map_fst_concatAxis1 (frames : List (ℕ × RawPanel)) :
    (concatAxis1 frames).map Prod.fst = unionDates frames := by
  rw [concatAxis1, List.map_map]
  exact List.map_id _

/-- The date index of any `fillStep` output over a duplicate-free date set
is strictly increasing. -/
theorem pairwise_lt_fillStep (p : RawPanel) (h : (p.map Prod.fst).Nodup) :
    ((fillStep p).map Prod.fst).Pairwise (· < ·) := by
  have hperm : List.Perm ((sort_index p).map Prod.fst) (p.map Prod.fst) :=
    (List.perm_insertionSort dateLe p).map Prod.fst
  have hnodup : ((sort_index p).map Prod.fst).Nodup := hperm.nodup_iff.mpr h
  have hle : ((sort_index p).map Prod.fst).Pairwise (· ≤ ·) :=
    (sorted_dateLe_iff_map _).mp (sorted_sort_index p)
  have hfill : (fillStep p).map Prod.fst = (sort_index p).map Prod.fst := by
    rw [fillStep, map_fst_bfill, map_fst_ffill]
  rw [hfill]
  exact (hle.and hnodup).imp (fun h => lt_of_le_of_ne h.1 h.2)

/-- The output of the merge pipeline always has a strictly increasing,
duplicate-free date index. -/
theorem fetch_dates_strictMono
    (yahooFetch : String → String → RawPanel)
    (fredFetch : String → SingleSeries) (period interval : String) :
    ((fetch_cross_asset_data yahooFetch fredFetch period interval).map
      Prod.fst).Pairwise (· < ·) := by
  rw [fetch_cross_asset_data]
  apply pairwise_lt_fillStep
  rw [map_fst_concatAxis1]
  exact nodup_unionDates _

/-! ### An empty Yahoo fetch leaves the market-data columns entirely absent

`RowShape k w r`: the row is `k` leading cells followed by `w` missing
cells — the shape of every merged row when the Yahoo frame has no rows
(`k` FRED cells, `w` absent Yahoo cells). The shape survives the fill step,
so `dropna` then removes every row.
-/

def RowShape (k w : ℕ) (r : Row) : Prop :=
  ∃ t, t.length = k ∧ r = t ++ List.replicate w none

theorem fillRow_append (a b a' b' : Row) (h : a.length = a'.length) :
    fillRow (a ++ b) (a' ++ b') = fillRow a a' ++ fillRow b b' := by
  induction a generalizing a' with
  | nil =>
    obtain rfl : a' = [] := by
      cases a' with
      | nil => rfl
      | cons _ _ => simp at h
    simp [fillRow_nil_left, fillRow]
  | cons x xs ih =>
    cases a' with
    | nil => simp at h
    | cons y ys =>
      simp only [List.length_cons, Nat.add_right_cancel_iff] at h
      simp [fillRow, ih ys h]

theorem fillRow_replicate_none (w : ℕ) :
    fillRow (List.replicate w none) (List.replicate w none) =
      List.replicate w none := by
  induction w with
  | zero => rfl
  | succ n ih => simp [List.replicate, fillRow, fillCell, ih]

theorem fillRow_length_eq (a b : Row) : (fillRow a b).length = b.length :=
  fillRow_length a b

theorem rowShape_fillRow (k w : ℕ) (a b : Row) (ha : RowShape k w a)
    (hb : RowShape k w b) : RowShape k w (fillRow a b) := by
  obtain ⟨ta, hta, rfl⟩ := ha
  obtain ⟨tb, htb, rfl⟩ := hb
  refine ⟨fillRow ta tb, ?_, ?_⟩
  · rw [fillRow_length_eq, htb]
  · rw [fillRow_append ta _ tb _ (hta.trans htb.symm), fillRow_replicate_none]

theorem rowShape_ffillFrom (k w : ℕ) (c : Row) (p : RawPanel)
    (hc : ∀ b, RowShape k w b → RowShape k w (fillRow c b))
    (hp : ∀ x ∈ p, RowShape k w x.2) :
    ∀ x ∈ ffillFrom c p, RowShape k w x.2 := by
  induction p generalizing c with
  | nil => simp [ffillFrom]
  | cons hd rest ih =>
    obtain ⟨d, r⟩ := hd
    intro x hx
    have hr : RowShape k w (fillRow c r) := hc r (hp (d, r) (by simp))
    rw [ffillFrom] at hx
    rcases List.mem_cons.mp hx with h | h
    · rw [h]; exact hr
    · exact ih (fillRow c r) (fun b hb => rowShape_fillRow k w _ b hr hb)
        (fun y hy => hp y (List.mem_cons_of_mem _ hy)) x h

theorem rowShape_fillStep (k w : ℕ) (p : RawPanel)
    (hp : ∀ x ∈ p, RowShape k w x.2) :
    ∀ x ∈ fillStep p, RowShape k w x.2 := by
  have hsort : ∀ x ∈ sort_index p, RowShape k w x.2 := by
    intro x hx
    exact hp x ((List.mem_insertionSort dateLe).mp hx)
  have hff : ∀ x ∈ ffill (sort_index p), RowShape k w x.2 :=
    rowShape_ffillFrom k w [] _ (fun b hb => by rwa [fillRow_nil_left]) hsort
  intro x hx
  rw [fillStep, bfill] at hx
  rw [List.mem_reverse] at hx
  refine rowShape_ffillFrom k w [] _ (fun b hb => by rwa [fillRow_nil_left])
    ?_ x hx
  intro y hy
  exact hff y (List.mem_reverse.mp hy)

theorem alignRow_append (fs gs : List (ℕ × RawPanel)) (d : Date) :
    alignRow (fs ++ gs) d = alignRow fs d ++ alignRow gs d := by
  induction fs with
  | nil => rfl
  | cons f fs ih => simp [alignRow] at ih ⊢; rw [ih]

theorem alignRow_empty_frame (w : ℕ) (d : Date) :
    alignRow [(w, ([] : RawPanel))] d = List.replicate w none := by
  simp [alignRow, lookupRow]

theorem lookupRow_mem (p : RawPanel) (q : Date) (r : Row)
    (h : lookupRow p q = some r) : (q, r) ∈ p := by
  induction p with
  | nil => simp [lookupRow] at h
  | cons hd rest ih =>
    obtain ⟨d, r'⟩ := hd
    rw [lookupRow] at h
    by_cases hd : d = q
    · rw [if_pos hd] at h
      obtain rfl := Option.some.inj h
      simp [hd]
    · rw [if_neg hd] at h
      exact List.mem_cons_of_mem _ (ih h)

/-- Rows of constant length `n` keep that length through a fill pass. -/
theorem len_ffillFrom (n : ℕ) (c : Row) (p : RawPanel)
    (hp : ∀ x ∈ p, x.2.length = n) : ∀ x ∈ ffillFrom c p, x.2.length = n := by
  induction p generalizing c with
  | nil => simp [ffillFrom]
  | cons hd rest ih =>
    obtain ⟨d, r⟩ := hd
    intro x hx
    rw [ffillFrom] at hx
    rcases List.mem_cons.mp hx with h | h
    · rw [h]
      simp only [fillRow_length_eq]
      exact hp (d, r) (by simp)
    · exact ih (fillRow c r) (fun y hy => hp y (List.mem_cons_of_mem _ hy)) x h

/-- Every row of a filled FRED frame is a single cell. -/
theorem fetch_fred_series_row_len (s : SingleSeries) :
    ∀ x ∈ fetch_fred_series s, x.2.length = 1 := by
  have h0 : ∀ x ∈ singleToFrame s, x.2.length = 1 := by
    intro x hx
    obtain ⟨dc, _, rfl⟩ := List.mem_map.mp hx
    rfl
  have h1 : ∀ x ∈ ffill (singleToFrame s), x.2.length = 1 :=
    len_ffillFrom 1 [] _ h0
  intro x hx
  rw [fetch_fred_series, bfill] at hx
  rw [List.mem_reverse] at hx
  refine len_ffillFrom 1 [] _ ?_ x hx
  intro y hy
  exact h1 y (List.mem_reverse.mp hy)

/-- A list of width-1 frames whose rows are all single cells contributes
exactly one cell per frame to a merged row. -/
theorem alignRow_length_ones (fs : List (ℕ × RawPanel)) (d : Date)
    (hfs : ∀ f ∈ fs, f.1 = 1 ∧ ∀ r, lookupRow f.2 d = some r → r.length = 1) :
    (alignRow fs d).length = fs.length := by
  induction fs with
  | nil => rfl
  | cons f fs ih =>
    obtain ⟨hw, hr⟩ := hfs f (by simp)
    have ihl := ih (fun g hg => hfs g (List.mem_cons_of_mem _ hg))
    rw [alignRow] at ihl ⊢
    simp only [List.foldr_cons, List.length_append, ihl]
    cases hlook : lookupRow f.2 d with
    | none => simp [hw, Nat.add_comm]
    | some r => simp [hr r hlook, Nat.add_comm]

/-- When the Yahoo close frame has no rows, every merged row consists of
the 5 FRED cells followed by 6 absent Yahoo cells, and the fill step
cannot change that. -/
theorem fetch_empty_yahoo_shape
    (yahooFetch : String → String → RawPanel)
    (fredFetch : String → SingleSeries) (period interval : String)
    (h : yahooFetch period (yahooCallInterval period interval) = []) :
    ∀ x ∈ fetch_cross_asset_data yahooFetch fredFetch period interval,
      RowShape 5 6 x.2 := by
  rw [fetch_cross_asset_data]
  simp only [h]
  apply rowShape_fillStep
  intro x hx
  rw [concatAxis1] at hx
  obtain ⟨d, _, rfl⟩ := List.mem_map.mp hx
  rw [alignRow_append]
  have hyah : alignRow [(yahooWidth, ([] : RawPanel))] d =
      List.replicate 6 none := alignRow_empty_frame 6 d
  rw [hyah]
  refine ⟨alignRow (FRED_SERIES.map
    (fun sid => (1, fetch_fred_series (fredFetch sid)))) d, ?_, rfl⟩
  rw [alignRow_length_ones]
  · simp [FRED_SERIES]
  · intro f hf
    obtain ⟨sid, _, rfl⟩ := List.mem_map.mp hf
    refine ⟨rfl, fun r hr => ?_⟩
    exact fetch_fred_series_row_len (fredFetch sid) (d, r) (lookupRow_mem _ _ _ hr)

/-- `dropna` removes every row that ends in a block of absent cells. -/
theorem dropna_eq_nil_of_shape (p : RawPanel)
    (hp : ∀ x ∈ p, RowShape 5 6 x.2) : dropna p = [] := by
  rw [dropna, List.filter_eq_nil_iff]
  intro x hx
  obtain ⟨t, _, hshape⟩ := hp x hx
  rw [hshape]
  simp [List.all_append]

/-! ## Lemmas on the maximum drawdown -/

/-- Every drawdown strictly after the first point lies in `(-1, 0]` when
all prices are positive (running maximum seeded with `m > 0`). -/
theorem dd_tail_bounds (m : ℚ) (xs : List ℚ) (hm : 0 < m)
    (hxs : ∀ y ∈ xs, 0 < y) :
    ∀ d ∈ List.zipWith (fun p mx => p / mx - 1) xs (cummaxFrom m xs),
      -1 < d ∧ d ≤ 0 := by
  induction xs generalizing m with
  | nil => simp
  | cons y ys ih =>
    have hy : 0 < y := hxs y (by simp)
    have hmax : 0 < max m y := lt_max_of_lt_left hm
    intro d hd
    rw [cummaxFrom, List.zipWith_cons_cons] at hd
    rcases List.mem_cons.mp hd with h | h
    · subst h
      constructor
      · have : 0 < y / max m y := div_pos hy hmax
        linarith
      · have : y / max m y ≤ 1 := (div_le_one hmax).mpr (le_max_right m y)
        linarith
    · exact ih (max m y) hmax (fun z hz => hxs z (List.mem_cons_of_mem _ hz)) d h

/-- The drawdowns after the first point all vanish exactly when the series
keeps making new highs (is a `≤`-chain over the running maximum seed). -/
theorem dd_tail_zero_iff (m : ℚ) (xs : List ℚ) (hm : 0 < m)
    (hxs : ∀ y ∈ xs, 0 < y) :
    (∀ d ∈ List.zipWith (fun p mx => p / mx - 1) xs (cummaxFrom m xs), d = 0) ↔
      List.Chain (· ≤ ·) m xs := by
  induction xs generalizing m with
  | nil => simp
  | cons y ys ih =>
    have hy : 0 < y := hxs y (by simp)
    have hmax : 0 < max m y := lt_max_of_lt_left hm
    rw [cummaxFrom, List.zipWith_cons_cons, List.chain_cons]
    have hhead : y / max m y - 1 = 0 ↔ m ≤ y := by
      constructor
      · intro h
        have h1 : y / max m y = 1 := by linarith
        rw [div_eq_one_iff_eq (ne_of_gt hmax)] at h1
        exact max_eq_right_iff.mp h1.symm
      · intro h
        rw [max_eq_right h, div_self (ne_of_gt hy)]
        ring
    constructor
    · intro h
      have hm_le : m ≤ y := hhead.mp (h _ (by simp))
      refine ⟨hm_le, ?_⟩
      have htail := (ih (max m y) hmax
        (fun z hz => hxs z (List.mem_cons_of_mem _ hz))).mp
        (fun d hd => h d (List.mem_cons_of_mem _ hd))
      rwa [max_eq_right hm_le] at htail
    · rintro ⟨hm_le, hch⟩
      intro d hd
      rcases List.mem_cons.mp hd with h | h
      · rw [h]; exact hhead.mpr hm_le
      · have := (ih (max m y) hmax
          (fun z hz => hxs z (List.mem_cons_of_mem _ hz))).mpr
          (by rwa [max_eq_right hm_le])
        exact this d h

/-- On a non-empty positive price series the maximum drawdown exists, lies
in `(-1, 0]`, and vanishes exactly when the series is non-decreasing. -/
theorem maxDrawdown_spec (l : List ℚ) (hne : l ≠ [])
    (hpos : ∀ x ∈ l, 0 < x) :
    ∃ dd, maxDrawdown l = some dd ∧ -1 < dd ∧ dd ≤ 0 ∧
      (dd = 0 ↔ List.Chain' (· ≤ ·) l) := by
  obtain ⟨x, xs, rfl⟩ := List.exists_cons_of_ne_nil hne
  have hx : 0 < x := hpos x (by simp)
  have hxs : ∀ y ∈ xs, 0 < y := fun y hy => hpos y (List.mem_cons_of_mem _ hy)
  have hdd : drawdowns (x :: xs) =
      0 :: List.zipWith (fun p mx => p / mx - 1) xs (cummaxFrom x xs) := by
    rw [drawdowns, cummax, List.zipWith_cons_cons, div_self (ne_of_gt hx)]
    norm_num
  set T := List.zipWith (fun p mx => p / mx - 1) xs (cummaxFrom x xs) with hT
  have hmin : ∃ dd, maxDrawdown (x :: xs) = some dd := by
    rw [maxDrawdown, hdd]
    exact ⟨_, rfl⟩
  obtain ⟨dd, hdd_eq⟩ := hmin
  have hdd_min : (0 :: T).min? = some dd := by
    rw [maxDrawdown, hdd] at hdd_eq
    exact hdd_eq
  have hmem : dd ∈ 0 :: T := List.min?_mem (fun a b => min_choice a b) hdd_min
  have hlb : ∀ b ∈ 0 :: T, dd ≤ b :=
    (List.le_min?_iff (fun a b c => le_min_iff) hdd_min).mp le_rfl
  have hbounds : -1 < dd ∧ dd ≤ 0 := by
    rcases List.mem_cons.mp hmem with h | h
    · rw [h]; norm_num
    · exact dd_tail_bounds x xs hx hxs dd h
  refine ⟨dd, hdd_eq, hbounds.1, hbounds.2, ?_⟩
  have hchain : List.Chain' (· ≤ ·) (x :: xs) ↔ List.Chain (· ≤ ·) x xs :=
    Iff.rfl
  rw [hchain, ← dd_tail_zero_iff x xs hx hxs]
  constructor
  · intro h0 d hd
    have h1 : dd ≤ d := hlb d (List.mem_cons_of_mem _ hd)
    have h2 := dd_tail_bounds x xs hx hxs d hd
    rw [h0] at h1
    linarith [h2.2]
  · intro hall
    rcases List.mem_cons.mp hmem with h | h
    · exact h
    · exact hall dd h

/-! ## Lemmas on the Pearson correlation -/

theorem covSum_comm (xs ys : List ℚ) : covSum xs ys = covSum ys xs := by
  rw [covSum, covSum, List.zipWith_comm]
  have hfun : (fun b a => (a - mean xs) * (b - mean ys)) =
      (fun a b => (a - mean ys) * (b - mean xs)) := by
    funext a b
    ring
  rw [hfun]

theorem varSum_nonneg (xs : List ℚ) : 0 ≤ varSum xs := by
  rw [varSum, covSum, List.zipWith_same]
  apply List.sum_nonneg
  intro x hx
  obtain ⟨a, _, rfl⟩ := List.mem_map.mp hx
  exact mul_self_nonneg _

theorem corr_comm (xs ys : List ℚ) : corr xs ys = corr ys xs := by
  by_cases h : varSum xs = 0 ∨ varSum ys = 0
  · rw [corr, corr, if_pos h, if_pos (Or.symm h)]
  · rw [corr, corr, if_neg h, if_neg (fun hc => h (Or.symm hc))]
    rw [covSum_comm, mul_comm]

theorem corr_self (xs : List ℚ) (h : varSum xs ≠ 0) : corr xs xs = some 1 := by
  rw [corr, if_neg (by simp [h])]
  have hv : (0 : ℝ) ≤ (varSum xs : ℝ) := by exact_mod_cast varSum_nonneg xs
  have hne : (varSum xs : ℝ) ≠ 0 := by exact_mod_cast h
  have hcov : covSum xs xs = varSum xs := rfl
  rw [hcov, Real.mul_self_sqrt hv, div_self hne]

theorem round3_one : round3 1 = 1 := by
  rw [round3, one_mul]
  have h : (1000 : ℝ) = ((1000 : ℤ) : ℝ) := by norm_num
  rw [h, round_intCast]
  norm_num

theorem corrEntry_symm (cols : List (List ℚ)) (i j : ℕ) :
    corrEntry cols i j = corrEntry cols j i := by
  rw [corrEntry, corrEntry]
  cases cols[i]? <;> cases cols[j]? <;> simp [corr_comm]

theorem corrEntry_diag (cols : List (List ℚ)) (i : ℕ) (hi : i < cols.length)
    (h : varSum cols[i] ≠ 0) : corrEntry cols i i = some (some 1) := by
  rw [corrEntry, List.getElem?_eq_getElem hi]
  simp [corr_self _ h, round3_one]

/-! ## Lemmas on the rolling correlation -/

theorem countP_range_ge (k N : ℕ) :
    (List.range N).countP (fun i => decide (k ≤ i)) = N - k := by
  induction N with
  | zero => simp
  | succ n ih =>
    rw [List.range_succ, List.countP_append, ih]
    have hsing : List.countP (fun i => decide (k ≤ i)) [n] =
        if k ≤ n then 1 else 0 := by
      by_cases h : k ≤ n <;> simp [List.countP_cons, h]
    rw [hsing]
    by_cases h : k ≤ n
    · rw [if_pos h]; omega
    · rw [if_neg h]; omega

/-- The number of defined rolling-correlation values, when no trailing
window of either series is degenerate: one per index from `w - 1` on. -/
theorem rolling_corr_count (xs ys : List ℚ)
    (hnd : ∀ i, i < xs.length → 29 ≤ i →
      varSum (windowAt 30 xs i) ≠ 0 ∧ varSum (windowAt 30 ys i) ≠ 0) :
    (rolling_corr 30 xs ys).countP (fun o => o.isSome) = xs.length - 29 := by
  rw [rolling_corr, List.countP_map]
  rw [List.countP_congr (q := fun i => decide (29 ≤ i)) ?_]
  · exact countP_range_ge 29 xs.length
  · intro i hi
    rw [List.mem_range] at hi
    by_cases h : i + 1 < 30
    · have h29 : ¬ 29 ≤ i := by omega
      simp [Function.comp, if_pos h, h29]
    · have h29 : 29 ≤ i := by omega
      obtain ⟨h1, h2⟩ := hnd i hi h29
      simp [Function.comp, if_neg h, corr, if_neg (by tauto : ¬ (varSum
        (windowAt 30 xs i) = 0 ∨ varSum (windowAt 30 ys i) = 0)), h29]

/-- The first `29` rolling-correlation entries are always absent. -/
theorem rolling_corr_head_none (xs ys : List ℚ) (i : ℕ) (h29 : i < 29)
    (hlen : i < xs.length) :
    (rolling_corr 30 xs ys)[i]? = some none := by
  rw [rolling_corr, List.getElem?_map, List.getElem?_range hlen]
  simp [if_pos (by omega : i + 1 < 30)]

/-- With fewer than 30 observations every rolling-correlation entry is
absent. -/
theorem rolling_corr_all_none (xs ys : List ℚ) (hshort : xs.length < 30) :
    ∀ o ∈ rolling_corr 30 xs ys, o = none := by
  intro o ho
  rw [rolling_corr] at ho
  obtain ⟨i, hi, rfl⟩ := List.mem_map.mp ho
  rw [List.mem_range] at hi
  rw [if_pos (by omega : i + 1 < 30)]

theorem varSum_replicate_zero (n : ℕ) :
    varSum (List.replicate n (0 : ℚ)) = 0 := by
  norm_num [varSum, covSum, mean, List.zipWith_same, List.map_replicate,
    List.sum_replicate]

/-! ## Claim theorems -/

/-- C1, counterexample: when the Yahoo fetch yields no rows but the FRED
fetches do return data, `fetch_cross_asset_data` does NOT return an empty
panel — it returns the FRED rows (with all Yahoo cells absent), so the
claim's "returns an empty panel with zero rows" is false as stated. -/
theorem empty_yahoo_pipeline_not_empty :
    (fun (_ _ : String) => ([] : RawPanel)) ("1y")
        (yahooCallInterval ("1y") ("1d")) = [] ∧
      fetch_cross_asset_data (fun _ _ => []) (fun _ => [((0 : ℤ), some 1)])
        ("1y") ("1d") ≠ [] := by
  exact ⟨rfl, by decide⟩

/-- C1 (amended): when the Yahoo fetch yields no rows, the merged panel's
Yahoo columns are entirely absent, so the caller's `dropna` yields an
empty panel and `update_dashboard` short-circuits to the "No data
returned" state without invoking any metric computation (the panel
returned by the pipeline itself is empty only when the FRED fetches are
also empty). -/
theorem empty_yahoo_no_data_display
    (yahooFetch : String → String → RawPanel)
    (fredFetch : String → SingleSeries) (period interval : String)
    (h : yahooFetch period (yahooCallInterval period interval) = []) :
    dropna (fetch_cross_asset_data yahooFetch fredFetch period interval) = [] ∧
    ∀ nVol nDd nCorr : ℕ,
      update_dashboard nVol nDd nCorr yahooFetch fredFetch period interval =
        DashDisplay.noDataReturned := by
  have hshape := fetch_empty_yahoo_shape yahooFetch fredFetch period interval h
  have hnil := dropna_eq_nil_of_shape _ hshape
  refine ⟨hnil, fun nVol nDd nCorr => ?_⟩
  rw [update_dashboard]
  simp [hnil]

/-- C1, witness: the amended theorem applied to a concrete refresh where
the Yahoo fetch returns nothing and each FRED fetch returns one row. -/
theorem empty_yahoo_no_data_display_witness :
    dropna (fetch_cross_asset_data (fun _ _ => [])
      (fun _ => [((0 : ℤ), some 1)]) ("1y") ("1d")) = [] ∧
    ∀ nVol nDd nCorr : ℕ,
      update_dashboard nVol nDd nCorr (fun _ _ => [])
        (fun _ => [((0 : ℤ), some 1)]) ("1y") ("1d") =
        DashDisplay.noDataReturned :=
  empty_yahoo_no_data_display _ _ _ _ rfl

/-- C2: the date index of every panel produced by the merge pipeline is
strictly increasing — each date exceeds its predecessor and no date
appears twice (holds for all outputs, in particular non-empty ones). -/
theorem fetch_dates_increasing_nodup
    (yahooFetch : String → String → RawPanel)
    (fredFetch : String → SingleSeries) (period interval : String) :
    List.Chain' (· < ·)
      ((fetch_cross_asset_data yahooFetch fredFetch period interval).map
        Prod.fst) ∧
    ((fetch_cross_asset_data yahooFetch fredFetch period interval).map
      Prod.fst).Nodup := by
  have h := fetch_dates_strictMono yahooFetch fredFetch period interval
  exact ⟨List.chain'_iff_pairwise.mpr h, h.imp ne_of_lt⟩

/-- C3, counterexample: on the price column `[1, 0]` (a price hitting
zero) the computed maximum drawdown is exactly `-1`, which is outside the
claimed half-open interval `(-1, 0]`. -/
theorem maxDrawdown_at_zero_price :
    maxDrawdown [1, 0] = some (-1) ∧ ¬ (-1 < (-1 : ℚ)) := by
  constructor
  · norm_num [maxDrawdown, drawdowns, cummax, cummaxFrom, List.min?, min_def]
  · norm_num

/-- C3 (amended): for every non-empty instrument column with strictly
positive prices, the maximum drawdown exists, lies in `(-1, 0]`, and is
`0` iff the price series is non-decreasing throughout the window. -/
theorem maxDrawdown_range_spec (l : List ℚ) (hne : l ≠ [])
    (hpos : ∀ x ∈ l, 0 < x) :
    ∃ dd, maxDrawdown l = some dd ∧ -1 < dd ∧ dd ≤ 0 ∧
      (dd = 0 ↔ List.Chain' (· ≤ ·) l) :=
  maxDrawdown_spec l hne hpos

/-- C3, witness: the amended theorem applied to the column `[2, 1]`. -/
theorem maxDrawdown_range_spec_witness :
    ([2, 1] : List ℚ) ≠ [] ∧ (∀ x ∈ ([2, 1] : List ℚ), 0 < x) ∧
    ∃ dd, maxDrawdown [2, 1] = some dd ∧ -1 < dd ∧ dd ≤ 0 ∧
      (dd = 0 ↔ List.Chain' (· ≤ ·) ([2, 1] : List ℚ)) :=
  ⟨by simp, by norm_num, maxDrawdown_range_spec [2, 1] (by simp) (by norm_num)⟩

/-- C4: the fill step (sort by date, forward-fill, then backward-fill) is
idempotent: applying it twice yields exactly the panel obtained by
applying it once. -/
theorem fillStep_idempotent (p : RawPanel) :
    fillStep (fillStep p) = fillStep p :=
  fillStep_idem p

/-- C5, counterexample: a returns panel with two non-degenerate columns
and one constant column satisfies the claim's premise, yet the constant
column's diagonal entry of `returns.corr().round(3)` is `NaN` (`none`),
not `1.0`. -/
theorem corr_matrix_degenerate_diag :
    varSum [1, 2, 3] ≠ 0 ∧ varSum [1, 3, 2] ≠ 0 ∧
    corrEntry [[1, 2, 3], [1, 3, 2], [5, 5, 5]] 2 2 = some none ∧
    some (none : Option ℝ) ≠ some (some 1) := by
  refine ⟨by norm_num [varSum, covSum, mean],
    by norm_num [varSum, covSum, mean], ?_, by simp⟩
  have h5 : varSum [5, 5, 5] = 0 := by norm_num [varSum, covSum, mean]
  rw [corrEntry]
  simp [corr, h5]

/-- C5 (amended): for every returns panel with at least two columns, all
of them non-degenerate, the rounded correlation matrix is symmetric and
every diagonal entry equals `1.0` exactly (symmetry holds for all panels;
the diagonal needs the column to be non-degenerate). -/
theorem corr_matrix_symm_diag (cols : List (List ℚ)) (_h2 : 2 ≤ cols.length)
    (hnd : ∀ c ∈ cols, varSum c ≠ 0) :
    (∀ i j, corrEntry cols i j = corrEntry cols j i) ∧
    ∀ i : ℕ, ∀ _ : i < cols.length, corrEntry cols i i = some (some 1) := by
  refine ⟨fun i j => corrEntry_symm cols i j, fun i hi => ?_⟩
  exact corrEntry_diag cols i hi (hnd _ (List.getElem_mem hi))

/-- C5, witness: the amended theorem applied to the two-column returns
panel `[[1, 2], [2, 1]]`. -/
theorem corr_matrix_symm_diag_witness :
    2 ≤ ([[1, 2], [2, 1]] : List (List ℚ)).length ∧
    (∀ i j, corrEntry [[1, 2], [2, 1]] i j = corrEntry [[1, 2], [2, 1]] j i) ∧
    ∀ i : ℕ, ∀ _ : i < ([[1, 2], [2, 1]] : List (List ℚ)).length,
      corrEntry [[1, 2], [2, 1]] i i = some (some 1) := by
  have hnd : ∀ c ∈ ([[1, 2], [2, 1]] : List (List ℚ)), varSum c ≠ 0 := by
    intro c hc
    rcases List.mem_cons.mp hc with rfl | hc
    · norm_num [varSum, covSum, mean]
    · rcases List.mem_cons.mp hc with rfl | hc
      · norm_num [varSum, covSum, mean]
      · simp at hc
  have h := corr_matrix_symm_diag [[1, 2], [2, 1]] (by norm_num) hnd
  exact ⟨by norm_num, h.1, h.2⟩

/-- C6, counterexample: a 30-row returns panel whose crypto returns are
constant has a degenerate 30-observation window, so the rolling
correlation has 0 defined values, not `30 - 29 = 1` as claimed. -/
theorem rolling_corr_degenerate_count :
    (List.replicate 30 (0 : ℚ)).length = 30 ∧
    (rolling_corr 30 (List.replicate 30 (0 : ℚ))
      (List.replicate 30 (0 : ℚ))).countP (fun o => o.isSome) = 0 ∧
    (0 : ℕ) ≠ 30 - 29 := by
  refine ⟨by simp, ?_, by norm_num⟩
  rw [List.countP_eq_zero]
  intro o ho
  rw [rolling_corr] at ho
  obtain ⟨i, hi, rfl⟩ := List.mem_map.mp ho
  rw [List.mem_range, List.length_replicate] at hi
  by_cases h : i + 1 < 30
  · simp [if_pos h]
  · have h29 : i = 29 := by omega
    subst h29
    have hwin : windowAt 30 (List.replicate 30 (0 : ℚ)) 29 =
        List.replicate 30 (0 : ℚ) := by
      simp [windowAt, List.take_replicate]
    have hnone : (if (29 : ℕ) + 1 < 30 then none else
        corr (windowAt 30 (List.replicate 30 (0 : ℚ)) 29)
          (windowAt 30 (List.replicate 30 (0 : ℚ)) 29)) = none := by
      rw [if_neg h, hwin, corr, if_pos (Or.inl (varSum_replicate_zero 30))]
    rw [hnone]
    simp

/-- C6 (amended): for every pair of aligned returns series, the rolling
30-observation correlation is absent at each of the first 29 positions
(and everywhere when fewer than 30 rows exist), and when no trailing
window of either series is degenerate the series has exactly `N - 29`
defined values. -/
theorem rolling_corr_defined_count (xs ys : List ℚ)
    (hnd : ∀ i, i < xs.length → 29 ≤ i →
      varSum (windowAt 30 xs i) ≠ 0 ∧ varSum (windowAt 30 ys i) ≠ 0) :
    (rolling_corr 30 xs ys).countP (fun o => o.isSome) = xs.length - 29 ∧
    (∀ i, i < 29 → i < xs.length → (rolling_corr 30 xs ys)[i]? = some none) ∧
    (xs.length < 30 → ∀ o ∈ rolling_corr 30 xs ys, o = none) :=
  ⟨rolling_corr_count xs ys hnd,
    fun i h1 h2 => rolling_corr_head_none xs ys i h1 h2,
    fun h => rolling_corr_all_none xs ys h⟩

/-- A 30-observation alternating returns series (used as a non-degenerate
witness input for the rolling correlation). -/
def alt30 : List ℚ :=
  [0, 1, 0, 1, 0, 1, 0, 1, 0, 1, 0, 1, 0, 1, 0, 1, 0, 1, 0, 1, 0, 1, 0, 1,
   0, 1, 0, 1, 0, 1]

/-- C6, witness: the amended theorem applied to the alternating
30-observation series, whose single trailing window is non-degenerate. -/
theorem rolling_corr_defined_count_witness :
    (∀ i, i < alt30.length → 29 ≤ i →
      varSum (windowAt 30 alt30 i) ≠ 0 ∧ varSum (windowAt 30 alt30 i) ≠ 0) ∧
    ((rolling_corr 30 alt30 alt30).countP (fun o => o.isSome) =
      alt30.length - 29 ∧
    (∀ i, i < 29 → i < alt30.length →
      (rolling_corr 30 alt30 alt30)[i]? = some none) ∧
    (alt30.length < 30 → ∀ o ∈ rolling_corr 30 alt30 alt30, o = none)) := by
  have hvar : ∀ i, i < alt30.length → 29 ≤ i →
      varSum (windowAt 30 alt30 i) ≠ 0 ∧ varSum (windowAt 30 alt30 i) ≠ 0 := by
    intro i h1 h2
    have hlen : alt30.length = 30 := by norm_num [alt30]
    have h29 : i = 29 := by omega
    subst h29
    have hwin : windowAt 30 alt30 29 = alt30 := by
      norm_num [windowAt, alt30]
    rw [hwin]
    constructor <;> norm_num [alt30, varSum, covSum, mean]
  exact ⟨hvar, rolling_corr_defined_count alt30 alt30 hvar⟩

/-- C7: the metrics-engine scenario on the panel `{BTC: [100,110,99,105]}`:
returns `[0.10, -0.10, 2/33 = 0.0606...]`, running maximum
`[100, 110, 110, 110]`, drawdowns `[0, 0, -0.10, -1/22 ≈ -0.0455]`, and
maximum drawdown `-0.10`. -/
theorem btc_scenario_metrics :
    pct_change [100, 110, 99, 105] = [1/10, -1/10, 2/33] ∧
    cummax [100, 110, 99, 105] = [100, 110, 110, 110] ∧
    drawdowns [100, 110, 99, 105] = [0, 0, -1/10, -1/22] ∧
    maxDrawdown [100, 110, 99, 105] = some (-1/10) ∧
    |(2/33 : ℚ) - 606/10000| < 1/10000 ∧
    |(-1/22 : ℚ) - (-455/10000)| < 5/100000 := by
  refine ⟨?_, ?_, ?_, ?_, by rw [abs_sub_lt_iff]; constructor <;> norm_num,
    by rw [abs_sub_lt_iff]; constructor <;> norm_num⟩
  · norm_num [pct_change]
  · norm_num [cummax, cummaxFrom]
  · norm_num [drawdowns, cummax, cummaxFrom]
  · norm_num [maxDrawdown, drawdowns, cummax, cummaxFrom, List.min?, min_def]

/-- C8: for the two enumerated lookbacks `"180d"` and `"1y"` the pipeline
forces the Yahoo sampling interval to `"1d"` whatever was requested, and
any other requested lookback passes the interval through unchanged. -/
theorem interval_forced_daily :
    (∀ interval : String,
      yahooCallInterval ("180d") interval = "1d" ∧
      yahooCallInterval ("1y") interval = "1d") ∧
    ∀ period interval : String,
      period ∉ (["180d", "1y"] : List String) →
      yahooCallInterval period interval = interval := by
  constructor
  · intro i
    constructor <;> rw [yahooCallInterval, if_pos (by simp)]
  · intro p i hp
    rw [yahooCallInterval, if_neg hp]

/-- C8, witness: the theorem at the requested interval `"5m"` and the
out-of-set lookback `"5d"`. -/
theorem interval_forced_daily_witness :
    ("5d" : String) ∉ (["180d", "1y"] : List String) ∧
    yahooCallInterval ("180d") ("5m") = "1d" ∧
    yahooCallInterval ("1y") ("5m") = "1d" ∧
    yahooCallInterval ("5d") ("5m") = "5m" :=
  ⟨by decide, (interval_forced_daily.1 ("5m")).1,
    (interval_forced_daily.1 ("5m")).2,
    interval_forced_daily.2 ("5d") ("5m") (by decide)⟩

/-- C9: the button-selection heuristic `max(buttons, key=buttons.get)`
does NOT implement "last clicked wins": after the click sequence
vol, vol, dd the counters are `(2, 1, 0)`, the last button pressed is
`dd`, but the callback selects the volatility view. -/
theorem selection_not_last_clicked :
    selectedView
      ([ViewKind.vol, ViewKind.vol, ViewKind.dd].count ViewKind.vol)
      ([ViewKind.vol, ViewKind.vol, ViewKind.dd].count ViewKind.dd)
      ([ViewKind.vol, ViewKind.vol, ViewKind.dd].count ViewKind.corrStress) =
      ViewKind.vol ∧
    [ViewKind.vol, ViewKind.vol, ViewKind.dd].getLast? = some ViewKind.dd ∧
    ViewKind.vol ≠ ViewKind.dd := by
  decide

/-- C10: for every FRED period string not containing the character `d`
the lookback silently defaults to exactly 365 days, so e.g. a `"1y"`
request and a unitless request fetch the identical date range
`[now - 365 days, now]`. -/
theorem fred_default_lookback (now : ℤ) (p q : List Char)
    (hp : p.contains 'd' = false) (hq : q.contains 'd' = false) :
    fredRange now p = some (now - 365, now) ∧
    fredRange now p = fredRange now q := by
  have h365 : ∀ r : List Char, r.contains 'd' = false →
      fredRange now r = some (now - 365, now) := by
    intro r hr
    rw [fredRange, fredDays, if_neg (by rw [hr]; exact Bool.false_ne_true)]
    rfl
  exact ⟨h365 p hp, (h365 p hp).trans (h365 q hq).symm⟩

/-- C10, witness: the theorem at `"1y"` and the unitless string `"365"`
with `now = 1000`. -/
theorem fred_default_lookback_witness :
    (['1', 'y'] : List Char).contains 'd' = false ∧
    (['3', '6', '5'] : List Char).contains 'd' = false ∧
    fredRange 1000 ['1', 'y'] = some (1000 - 365, 1000) ∧
    fredRange 1000 ['1', 'y'] = fredRange 1000 ['3', '6', '5'] := by
  refine ⟨by decide, by decide, ?_, ?_⟩
  · exact (fred_default_lookback 1000 ['1', 'y'] ['3', '6', '5'] (by decide)
      (by decide)).1
  · exact (fred_default_lookback 1000 ['1', 'y'] ['3', '6', '5'] (by decide)
      (by decide)).2

end CrossAssets
